import Mathlib

/-!
Monte Carlo integration: the online accumulator and the parallel trial protocol.

A shallow embedding of `mcquad.c` (sequential program) and `mcquad_par.c`
(MPI program).  Floating-point `double` values are taken over exact rational
arithmetic; the C `int` and `long` values are integers with explicit
truncation and wrap-around where the source relies on them.
-/

namespace Mcquad

/-- The two `double` variables `mean` and `variance` of `main` in `mcquad.c`
(line 104). -/
structure Accumulator where
  mean : ℚ
  variance : ℚ
  deriving DecidableEq

/-- The initial values `mean=0, variance=0` (line 104). -/
def init : Accumulator := ⟨0, 0⟩

/-- The body of the sampling loop (lines 116-120) at loop counter `n` with the
sample `x`: the variance is updated first, only when `n>1`, from the mean of the
previous iteration; then the mean is updated. -/
def update (n : ℕ) (x : ℚ) (s : Accumulator) : Accumulator :=
  let variance :=
    if n > 1 then ((n - 2 : ℚ) / (n - 1)) * s.variance + (1 / (n : ℚ)) * (x - s.mean) ^ 2
    else s.variance
  let mean := ((n - 1 : ℚ) / n) * s.mean + x / n
  ⟨mean, variance⟩

/-- The loop `for (int n=1; n<=N; n++)` (lines 112-121), started at counter `n`,
with the samples it draws given as the list of observations still to come. -/
def loop : ℕ → List ℚ → Accumulator → Accumulator
  | _, [], s => s
  | n, x :: xs, s => loop (n + 1) xs (update n x s)

/-- The accumulator after the whole sampling loop of `main` has consumed the
observations `xs`: counter from `1`, state from `init`. -/
def main (xs : List ℚ) : Accumulator := loop 1 xs init

/-- The arithmetic mean `(x_1 + ... + x_n) / n`. -/
def arithMean (xs : List ℚ) : ℚ := xs.sum / (xs.length : ℚ)

/-- The sum of squared deviations of `xs` from the centre `c`. -/
def sqDev (c : ℚ) (xs : List ℚ) : ℚ := (xs.map fun x => (x - c) ^ 2).sum

/-- The two-pass sample variance `(1/(n-1)) * sum (x_i - m)^2`, `m` the
arithmetic mean of `xs`. -/
def twoPassVariance (xs : List ℚ) : ℚ :=
  (1 / ((xs.length : ℚ) - 1)) * sqDev (arithMean xs) xs

end Mcquad

namespace McquadPar

/-- One draw of the sampler inside the loop of `mcquad` (lines 88-90):
`z=drand48(); y=p(z); x=f(y)`.  The library functions behind `f` and `p`
(`cos`, `log`) and the generator `drand48` are parameters; `g` is the state of
the generator, which the call advances. -/
def sample {S : Type} (f p : ℚ → ℚ) (drand48 : S → ℚ × S) (g : S) : ℚ × S :=
  let z := drand48 g
  let y := p z.1
  let x := f y
  (x, z.2)

/-- The loop `for (int n=1; n<=N; n++) { ...; mean+=x; }` of `mcquad`
(lines 87-92) with `k` iterations still to run. -/
def sumLoop {S : Type} (f p : ℚ → ℚ) (drand48 : S → ℚ × S) : ℕ → ℚ → S → ℚ × S
  | 0, mean, g => (mean, g)
  | k + 1, mean, g =>
    let x := sample f p drand48 g
    sumLoop f p drand48 k (mean + x.1) x.2

/-- The function `double mcquad(int N)` (lines 80-95): `mean` starts at `0`, the
loop body runs once for each `n` in `1..N` (no iteration when `N <= 0`), then
`mean*=(1.0/N)`.  Returns the mean and the generator state it leaves. -/
def mcquad {S : Type} (f p : ℚ → ℚ) (drand48 : S → ℚ × S) (N : ℤ) (g : S) : ℚ × S :=
  let r := sumLoop f p drand48 N.toNat 0 g
  (r.1 * (1 / (N : ℚ)), r.2)

/-- The trial loop `for(int j=0; j<numruns;j++) mc[j] = mcquad(N);` of `main`
(lines 167-168) with `k` trials still to run: the local array `mc` in index
order, and the generator state after the last trial. -/
def trialLoop {S : Type} (f p : ℚ → ℚ) (drand48 : S → ℚ × S) (N : ℤ) : ℕ → S → List ℚ × S
  | 0, g => ([], g)
  | k + 1, g =>
    let r := mcquad f p drand48 N g
    let rest := trialLoop f p drand48 N k r.2
    (r.1 :: rest.1, rest.2)

/-- The state of the generator after `k` calls of `drand48` from state `g`. -/
def advance {S : Type} (drand48 : S → ℚ × S) (k : ℕ) (g : S) : S :=
  (fun s => (drand48 s).2)^[k] g

/-- The `k`-th uniform variate `u_k` (from `0`) of the stream that starts in
state `g`. -/
def stream {S : Type} (drand48 : S → ℚ × S) (g : S) (k : ℕ) : ℚ :=
  (drand48 (advance drand48 k g)).1

/-- The first `n` observations `f(p(u_0)), ..., f(p(u_(n-1)))` of the stream
that starts in state `g`. -/
def observations {S : Type} (f p : ℚ → ℚ) (drand48 : S → ℚ × S) (g : S) (n : ℕ) : List ℚ :=
  (List.range n).map fun k => f (p (stream drand48 g k))

/-- A C `long` (64 bits, two's complement): the representative of `x` modulo
`2^64` in `[-2^63, 2^63)`. -/
def wrapLong (x : ℤ) : ℤ := (x + 2 ^ 63) % 2 ^ 64 - 2 ^ 63

/-- The assignment `numruns=T/size` (line 151): C division of `int`s, which
truncates toward zero. -/
def numruns (T size : ℤ) : ℤ := Int.tdiv T size

/-- The call `MPI_Bcast(&initseed,1,MPI_INT,0,MPI_COMM_WORLD)` (line 157) as a
process of rank `rank` sees it.  `initseed` is a `long`, the message is one
`MPI_INT`: the root keeps its value `root`; every other process receives the
four low-order bytes of the root's value (little-endian, 64-bit `long`) and
keeps the four high-order bytes `own` had before the call. -/
def bcastInitseed (root own rank : ℤ) : ℤ :=
  if rank = 0 then root
  else wrapLong (own % 2 ^ 64 / 2 ^ 32 * 2 ^ 32 + root % 2 ^ 32)

/-- The calls `MPI_Bcast(&N,...)` and `MPI_Bcast(&numruns,...)` (lines 159, 161)
of an `int` as one `MPI_INT`: every process ends with the root's value. -/
def bcastInt (root _own _rank : ℤ) : ℤ := root

/-- The value of `long seed=initseed+rank;` (line 164), the argument of
`srand48`. -/
def seed (initseed rank : ℤ) : ℤ := wrapLong (initseed + rank)

/-- The argument of `srand48` on the process of rank `rank`, when the root's
`initseed` is `mytime` and `own rank` is what the local `initseed` of that
process holds before the broadcast (lines 153-165). -/
def srand48Arg (mytime : ℤ) (own : ℤ → ℤ) (rank : ℤ) : ℤ :=
  seed (bcastInitseed mytime (own rank) rank) rank

/-- The local array `mc` of the process of rank `rank` after its trial loop
(lines 157-168): the generator is seeded once by `srand48(seed)` and then only
advanced by the trials. -/
def worker {S : Type} (f p : ℚ → ℚ) (srand48 : ℤ → S) (drand48 : S → ℚ × S)
    (mytime : ℤ) (own : ℤ → ℤ) (N numruns : ℤ) (rank : ℕ) : List ℚ :=
  (trialLoop f p drand48 (bcastInt N 0 rank) (bcastInt numruns 0 rank).toNat
    (srand48 (srand48Arg mytime own rank))).1

/-- The call `MPI_Gather(&mc,numruns,MPI_DOUBLE,results,numruns,...)` (line 174)
at the root: `count` values from the send buffer of each process, placed in
rank order. -/
def MPI_Gather (sendbufs : List (List ℚ)) (count : ℕ) : List ℚ :=
  sendbufs.flatMap fun mc => mc.take count

/-- The output file: the `int` written first, then the `double`s written after
it.  A `double` is `none` when the cell of `results` it was read from was never
assigned. -/
structure OutputFile where
  header : ℤ
  doubles : List (Option ℚ)

/-- The sequence gathered at the root from `size` processes for `T` trials. -/
def gathered {S : Type} (f p : ℚ → ℚ) (srand48 : ℤ → S) (drand48 : S → ℚ × S)
    (mytime : ℤ) (own : ℤ → ℤ) (N T size : ℤ) : List ℚ :=
  MPI_Gather ((List.range size.toNat).map
    (worker f p srand48 drand48 mytime own N (numruns T size))) (numruns T size).toNat

/-- The file that the root process of `main` writes (lines 148-183) for the
input `N`, `T` on `size` processes.  `results` is `malloc(T*sizeof(double))`, so
`T` unassigned cells; the gather assigns the first `numruns*size` of them;
`fwrite(&T,...)` writes `T` and `fwrite(results,sizeof(double),T,...)` writes the
first `T` cells.  No file is described for `T < 0` or `size <= 0`. -/
def main {S : Type} (f p : ℚ → ℚ) (srand48 : ℤ → S) (drand48 : S → ℚ × S)
    (mytime : ℤ) (own : ℤ → ℤ) (N T size : ℤ) : Option OutputFile :=
  if T < 0 ∨ size ≤ 0 then none
  else
    let got := gathered f p srand48 drand48 mytime own N T size
    let results := got.map some ++ List.replicate (T.toNat - got.length) none
    some ⟨T, results.take T.toNat⟩

/-- A generator that reads its variates from a list (`0` once the list is
exhausted): with it every finite sequence is the start of a stream. -/
def listDraw (l : List ℚ) : ℚ × List ℚ := (l.headD 0, l.tail)

end McquadPar

namespace Mcquad

theorem loop_append (xs : List ℚ) (x : ℚ) :
    ∀ (n : ℕ) (s : Accumulator),
      loop n (xs ++ [x]) s = update (n + xs.length) x (loop n xs s) := by
  induction xs with
  | nil => intro n s; simp [loop]
  | cons y ys ih =>
    intro n s
    have e : n + 1 + ys.length = n + (ys.length + 1) := by omega
    rw [List.cons_append, List.length_cons]
    show loop (n + 1) (ys ++ [x]) (update n y s) = _
    rw [ih, e]
    rfl

theorem main_append (xs : List ℚ) (x : ℚ) :
    main (xs ++ [x]) = update (xs.length + 1) x (main xs) := by
  unfold main
  rw [loop_append, Nat.add_comm]

/-- Expansion of the sum of squared deviations around any centre. -/
theorem sqDev_expand (c : ℚ) (xs : List ℚ) :
    sqDev c xs = (xs.map fun x => x ^ 2).sum - 2 * c * xs.sum + (xs.length : ℚ) * c ^ 2 := by
  induction xs with
  | nil => simp [sqDev]
  | cons y ys ih =>
    simp only [sqDev, List.map_cons, List.sum_cons, List.length_cons] at ih ⊢
    rw [ih]
    push_cast
    ring

theorem sqDev_nonneg (c : ℚ) (xs : List ℚ) : 0 ≤ sqDev c xs := by
  unfold sqDev
  apply List.sum_nonneg
  intro y hy
  rcases List.mem_map.1 hy with ⟨x, -, rfl⟩
  positivity

/-- The mean recurrence computes the arithmetic mean (with `0/0 = 0` for the
empty list). -/
theorem main_mean (xs : List ℚ) : (main xs).mean = arithMean xs := by
  induction xs using List.reverseRecOn with
  | nil => simp [main, loop, init, arithMean]
  | append_singleton xs x ih =>
    rw [main_append]
    simp only [update, ih, arithMean, List.sum_append, List.sum_singleton,
      List.length_append, List.length_singleton]
    push_cast
    rcases xs.length.eq_zero_or_pos with h0 | hpos
    · have hnil : xs = [] := List.length_eq_zero.1 h0
      subst hnil
      simp
    · have hL : (xs.length : ℚ) ≠ 0 := by exact_mod_cast hpos.ne'
      have hL1 : (xs.length : ℚ) + 1 ≠ 0 := by positivity
      field_simp
      ring

/-- The variance recurrence, in product form: `(n-1) * variance` is the sum of
squared deviations from the mean, for every nonempty list. -/
theorem main_variance_mul (xs : List ℚ) (hne : xs ≠ []) :
    ((xs.length : ℚ) - 1) * (main xs).variance = sqDev (arithMean xs) xs := by
  induction xs using List.reverseRecOn with
  | nil => exact absurd rfl hne
  | append_singleton xs x ih =>
    rw [main_append]
    rcases xs.length.eq_zero_or_pos with h0 | hpos
    · have hnil : xs = [] := List.length_eq_zero.1 h0
      subst hnil
      simp [update, main, loop, init, sqDev, arithMean]
    · have hne' : xs ≠ [] := by
        intro h; subst h; simp at hpos
      have ih' := ih hne'
      have hL : (xs.length : ℚ) ≠ 0 := by exact_mod_cast hpos.ne'
      have hL1 : (xs.length : ℚ) + 1 ≠ 0 := by positivity
      have hgt : xs.length + 1 > 1 := by omega
      rw [sqDev_expand] at ih' ⊢
      simp only [update, hgt, if_true, main_mean, arithMean, List.sum_append,
        List.sum_singleton, List.length_append, List.length_singleton, List.map_append,
        List.map_cons, List.map_nil] at ih' ⊢
      push_cast
      have e1 : ((xs.length : ℚ) + 1 - 1) = xs.length := by ring
      have e2 : ((xs.length : ℚ) + 1 - 2) = xs.length - 1 := by ring
      rw [e1, e2]
      have hv : ((xs.length : ℚ) - 1) / xs.length * (main xs).variance
          = ((xs.map fun x => x ^ 2).sum - 2 * (xs.sum / xs.length) * xs.sum
            + (xs.length : ℚ) * (xs.sum / xs.length) ^ 2) / xs.length := by
        rw [← ih']
        field_simp
      rw [mul_add, ← mul_assoc, mul_comm (xs.length : ℚ) (((xs.length : ℚ) - 1) / xs.length),
        mul_assoc, mul_comm (xs.length : ℚ) ((main xs).variance), ← mul_assoc, hv]
      field_simp
      ring

theorem main_variance_nonneg (xs : List ℚ) : 0 ≤ (main xs).variance := by
  induction xs using List.reverseRecOn with
  | nil => simp [main, loop, init]
  | append_singleton xs x ih =>
    rw [main_append]
    simp only [update]
    split_ifs with hgt
    · have h1 : (1 : ℚ) ≤ (xs.length : ℚ) := by
        have : 1 ≤ xs.length := by omega
        exact_mod_cast this
      have hc : (0 : ℚ) ≤ (((xs.length + 1 : ℕ) : ℚ) - 2) / (((xs.length + 1 : ℕ) : ℚ) - 1) := by
        push_cast
        apply div_nonneg <;> linarith
      have hs : (0 : ℚ) ≤ 1 / ((xs.length + 1 : ℕ) : ℚ) * (x - (main xs).mean) ^ 2 := by
        positivity
      exact add_nonneg (mul_nonneg hc ih) hs
    · exact ih

/-- C1: for every sequence of observations of length `n >= 1`, the mean that
the sampling loop of `mcquad.c` holds after `n` updates, started from `mean = 0`
with `mean <- ((n-1)/n)*mean + x_n/n`, equals `(x_1 + ... + x_n) / n`. -/
theorem C1_mean_is_arithmetic_mean (xs : List ℚ) (_h : 1 ≤ xs.length) :
    (main xs).mean = xs.sum / (xs.length : ℚ) := by
  have := main_mean xs
  simpa [arithMean] using this

theorem C1_mean_is_arithmetic_mean_witness :
    1 ≤ ([1, 2, 6] : List ℚ).length ∧
      (main [1, 2, 6]).mean = ([1, 2, 6] : List ℚ).sum / (([1, 2, 6] : List ℚ).length : ℚ) :=
  ⟨by decide, C1_mean_is_arithmetic_mean [1, 2, 6] (by decide)⟩

/-- C2: for every sequence of observations of length `n >= 2`, the variance
that the sampling loop of `mcquad.c` holds after `n` updates (variance updated
before the mean, from the mean of the previous iteration, only when `n > 1`)
equals the two-pass sample variance `(1/(n-1)) * sum (x_i - m)^2` with
`m = (x_1 + ... + x_n)/n`. -/
theorem C2_variance_is_two_pass_variance (xs : List ℚ) (h : 2 ≤ xs.length) :
    (main xs).variance = twoPassVariance xs := by
  have hne : xs ≠ [] := by
    intro h0; subst h0; simp at h
  have hmul := main_variance_mul xs hne
  have h2 : (2 : ℚ) ≤ (xs.length : ℚ) := by exact_mod_cast h
  have hd : (xs.length : ℚ) - 1 ≠ 0 := by
    intro h0; linarith
  unfold twoPassVariance
  rw [← hmul]
  field_simp

theorem C2_variance_is_two_pass_variance_witness :
    2 ≤ ([1, 2, 6] : List ℚ).length ∧ (main [1, 2, 6]).variance = twoPassVariance [1, 2, 6] :=
  ⟨by decide, C2_variance_is_two_pass_variance [1, 2, 6] (by decide)⟩

/-- C8, refuted as stated: after the three observations `0, 1, 1` the variance
is `1/3`, while the sample variance of observations `2..3` is `0`; and after
`1, 1, 1`, which has the same observations `2..3`, the variance is `0`. So the
variance is not the sample variance of observations `2..n`, nor any function of
them alone. -/
theorem C8_variance_counts_first_observation_counterexample :
    2 ≤ ([0, 1, 1] : List ℚ).length ∧
      (main [0, 1, 1]).variance = 1 / 3 ∧
      twoPassVariance (List.tail [0, 1, 1]) = 0 ∧
      (main [0, 1, 1]).variance ≠ twoPassVariance (List.tail [0, 1, 1]) ∧
      List.tail ([0, 1, 1] : List ℚ) = List.tail [1, 1, 1] ∧
      (main [1, 1, 1]).variance ≠ (main [0, 1, 1]).variance := by
  have e1 : (main [0, 1, 1]).variance = 1 / 3 := by
    norm_num [main, loop, update, init]
  have e2 : twoPassVariance (List.tail ([0, 1, 1] : List ℚ)) = 0 := by
    norm_num [twoPassVariance, sqDev, arithMean]
  have e3 : (main [1, 1, 1]).variance = 0 := by
    norm_num [main, loop, update, init]
  refine ⟨by decide, e1, e2, ?_, rfl, ?_⟩
  · rw [e1, e2]; norm_num
  · rw [e1, e3]; norm_num

/-- C8, amended: for a first observation `x1` followed by a nonempty sequence
`rest` (so `n >= 2` observations in all), the variance after the `n` updates is
the sample variance of all the observations `1..n`: the squared deviation of
`x1` from the overall mean `m` is counted with those of observations `2..n`, and
the sum is divided by `n - 1`, the length of `rest`. -/
theorem C8_variance_over_all_observations (x1 : ℚ) (rest : List ℚ) (h : rest ≠ []) :
    (main (x1 :: rest)).variance
      = ((x1 - arithMean (x1 :: rest)) ^ 2 + sqDev (arithMean (x1 :: rest)) rest)
          / (rest.length : ℚ) := by
  have hmul := main_variance_mul (x1 :: rest) (List.cons_ne_nil _ _)
  have hpos : 0 < rest.length := List.length_pos.2 h
  have hd : (rest.length : ℚ) ≠ 0 := by exact_mod_cast hpos.ne'
  have hs : sqDev (arithMean (x1 :: rest)) (x1 :: rest)
      = (x1 - arithMean (x1 :: rest)) ^ 2 + sqDev (arithMean (x1 :: rest)) rest := by
    simp [sqDev]
  rw [← hs, ← hmul]
  simp only [List.length_cons]
  push_cast
  field_simp

theorem C8_variance_over_all_observations_witness :
    ([1, 1] : List ℚ) ≠ [] ∧
      (main (0 :: [1, 1])).variance
        = ((0 - arithMean (0 :: [1, 1])) ^ 2 + sqDev (arithMean (0 :: [1, 1])) [1, 1])
            / (([1, 1] : List ℚ).length : ℚ) :=
  ⟨by decide, C8_variance_over_all_observations 0 [1, 1] (by decide)⟩

/-- C10: for every sequence of observations, of any length `n >= 0`, the
variance after the `n` updates is non-negative; after a single observation `x`
it is exactly `0` and the mean is `x`. -/
theorem C10_variance_nonneg_and_zero_after_first (xs : List ℚ) (x : ℚ) :
    0 ≤ (main xs).variance ∧ (main [x]).variance = 0 ∧ (main [x]).mean = x := by
  refine ⟨main_variance_nonneg xs, ?_, ?_⟩
  · simp [main, loop, update, init]
  · simp [main, loop, update, init]

end Mcquad

namespace McquadPar

theorem wrapLong_emod (x : ℤ) : wrapLong x % 2 ^ 32 = x % 2 ^ 32 := by
  unfold wrapLong
  omega

theorem wrapLong_of_range (x : ℤ) (h1 : -2 ^ 63 ≤ x) (h2 : x < 2 ^ 63) : wrapLong x = x := by
  unfold wrapLong
  omega

theorem advance_advance {S : Type} (drand48 : S → ℚ × S) (a k : ℕ) (g : S) :
    advance drand48 k (advance drand48 a g) = advance drand48 (a + k) g := by
  unfold advance
  rw [Nat.add_comm, Function.iterate_add_apply]

theorem advance_succ {S : Type} (drand48 : S → ℚ × S) (k : ℕ) (g : S) :
    advance drand48 (k + 1) g = advance drand48 k (drand48 g).2 := by
  unfold advance
  rw [Function.iterate_succ_apply]

theorem stream_advance {S : Type} (drand48 : S → ℚ × S) (a k : ℕ) (g : S) :
    stream drand48 (advance drand48 a g) k = stream drand48 g (a + k) := by
  unfold stream
  rw [advance_advance]

theorem observations_succ {S : Type} (f p : ℚ → ℚ) (drand48 : S → ℚ × S) (g : S) (n : ℕ) :
    observations f p drand48 g (n + 1)
      = f (p (drand48 g).1) :: observations f p drand48 (drand48 g).2 n := by
  unfold observations
  rw [List.range_succ_eq_map, List.map_cons, List.map_map]
  congr 1

/-- The loop of `mcquad` adds the next `k` observations of the stream to `mean`
and leaves the generator `k` draws further. -/
theorem sumLoop_eq {S : Type} (f p : ℚ → ℚ) (drand48 : S → ℚ × S) (k : ℕ) :
    ∀ (mean : ℚ) (g : S), sumLoop f p drand48 k mean g
      = (mean + (observations f p drand48 g k).sum, advance drand48 k g) := by
  induction k with
  | zero => intro mean g; simp [sumLoop, observations, advance]
  | succ k ih =>
    intro mean g
    simp only [sumLoop, sample]
    rw [ih, observations_succ, advance_succ, List.sum_cons, add_assoc]

theorem mcquad_eq {S : Type} (f p : ℚ → ℚ) (drand48 : S → ℚ × S) (N : ℤ) (g : S) :
    mcquad f p drand48 N g
      = ((observations f p drand48 g N.toNat).sum * (1 / (N : ℚ)), advance drand48 N.toNat g) := by
  simp only [mcquad]
  rw [sumLoop_eq, zero_add]

/-- The trial loop: trial `j` consumes the `N` draws after the first `j*N`, and
the generator ends `k*N` draws after its start. -/
theorem trialLoop_eq {S : Type} (f p : ℚ → ℚ) (drand48 : S → ℚ × S) (N : ℤ) (k : ℕ) :
    ∀ g : S, trialLoop f p drand48 N k g
      = ((List.range k).map (fun j =>
            (observations f p drand48 (advance drand48 (j * N.toNat) g) N.toNat).sum
              * (1 / (N : ℚ))),
          advance drand48 (k * N.toNat) g) := by
  induction k with
  | zero => intro g; simp [trialLoop, advance]
  | succ k ih =>
    intro g
    simp only [trialLoop]
    rw [mcquad_eq, ih, List.range_succ_eq_map, List.map_cons, List.map_map]
    simp only [advance_advance, Nat.zero_mul]
    refine Prod.ext ?_ ?_
    · have e0 : advance drand48 0 g = g := rfl
      have em : ∀ j : ℕ, N.toNat + j * N.toNat = (j + 1) * N.toNat := fun j => by ring
      simp only [e0, em]
      rfl
    · simp only
      have e : N.toNat + k * N.toNat = (k + 1) * N.toNat := by ring
      rw [e]

theorem trialLoop_length {S : Type} (f p : ℚ → ℚ) (drand48 : S → ℚ × S) (N : ℤ) (k : ℕ)
    (g : S) : (trialLoop f p drand48 N k g).1.length = k := by
  rw [trialLoop_eq]
  simp

theorem worker_length {S : Type} (f p : ℚ → ℚ) (srand48 : ℤ → S) (drand48 : S → ℚ × S)
    (mytime : ℤ) (own : ℤ → ℤ) (N numruns : ℤ) (rank : ℕ) :
    (worker f p srand48 drand48 mytime own N numruns rank).length = numruns.toNat := by
  unfold worker bcastInt
  rw [trialLoop_length]

theorem observations_length {S : Type} (f p : ℚ → ℚ) (drand48 : S → ℚ × S) (g : S) (n : ℕ) :
    (observations f p drand48 g n).length = n := by
  simp [observations]

theorem observations_listDraw (xs : List ℚ) :
    observations (fun x => x) (fun x => x) listDraw xs xs.length = xs := by
  induction xs with
  | nil => rfl
  | cons x xs ih =>
    rw [List.length_cons, observations_succ]
    simp only [listDraw, List.headD_cons, List.tail_cons]
    exact congrArg _ ih

/-- C7: for every sample count `N > 0`, every generator, every `f` and `p` and
every generator state, the value returned by `mcquad(N)` (sum of the `N`
observations, times `1/N`) equals the final mean of the accumulator of
`mcquad.c` fed the same `N` observations one by one from its initial state; in
particular for every sequence `xs` of `N` observations, read by the generator
that draws from the list. -/
theorem C7_mcquad_refines_accumulator_mean {S : Type} (f p : ℚ → ℚ) (drand48 : S → ℚ × S)
    (N : ℤ) (g : S) (hN : 0 < N) :
    (mcquad f p drand48 N g).1 = (Mcquad.main (observations f p drand48 g N.toNat)).mean ∧
      ∀ xs : List ℚ, (xs.length : ℤ) = N →
        (mcquad (fun x => x) (fun x => x) listDraw N xs).1 = (Mcquad.main xs).mean := by
  have hcast : ((N.toNat : ℕ) : ℚ) = (N : ℚ) := by
    have : ((N.toNat : ℕ) : ℤ) = N := Int.toNat_of_nonneg hN.le
    exact_mod_cast this
  have gen : ∀ {S' : Type} (f' p' : ℚ → ℚ) (d : S' → ℚ × S') (g' : S'),
      (mcquad f' p' d N g').1 = (Mcquad.main (observations f' p' d g' N.toNat)).mean := by
    intro S' f' p' d g'
    rw [mcquad_eq, Mcquad.main_mean]
    simp only [Mcquad.arithMean, observations_length, hcast]
    rw [mul_one_div]
  refine ⟨gen f p drand48 g, ?_⟩
  intro xs hxs
  have hl : N.toNat = xs.length := by omega
  rw [gen, hl, observations_listDraw]

theorem C7_mcquad_refines_accumulator_mean_witness :
    (0 : ℤ) < 3 ∧
      ((mcquad (fun x => x) (fun x => x) listDraw 3 [1, 2, 6]).1
          = (Mcquad.main (observations (fun x => x) (fun x => x) listDraw [1, 2, 6]
              (3 : ℤ).toNat)).mean ∧
        ∀ xs : List ℚ, (xs.length : ℤ) = 3 →
          (mcquad (fun x => x) (fun x => x) listDraw 3 xs).1 = (Mcquad.main xs).mean) :=
  ⟨by decide,
    C7_mcquad_refines_accumulator_mean (fun x => x) (fun x => x) listDraw 3 [1, 2, 6]
      (by decide)⟩

/-- C9: for every seed, every sample count `N > 0` and every trial count
`numruns`, with the generator seeded once by `srand48(seed)`: the trial loop
yields `numruns` results; before trial `j` the generator is exactly `j*N` draws
after the seeded state (it is only advanced, never seeded again); and the
result `mc[j]` is the mean of `f(p(u_k))` over the draws `k = j*N .. j*N+N-1` of
the stream `u_0, u_1, ...` of that seed. The right-hand sides mention only the
seed, `N` and `numruns`, so equal seed and sample count give equal results. -/
theorem C9_trials_read_one_stream {S : Type} (f p : ℚ → ℚ) (srand48 : ℤ → S)
    (drand48 : S → ℚ × S) (seedval N numruns : ℤ) (_hN : 0 < N) (_hn : 0 ≤ numruns) :
    (trialLoop f p drand48 N numruns.toNat (srand48 seedval)).1.length = numruns.toNat ∧
      (∀ j : ℕ, j ≤ numruns.toNat →
        (trialLoop f p drand48 N j (srand48 seedval)).2
          = advance drand48 (j * N.toNat) (srand48 seedval)) ∧
      (∀ j : ℕ, j < numruns.toNat →
        (trialLoop f p drand48 N numruns.toNat (srand48 seedval)).1[j]?
          = some (((List.range N.toNat).map fun k =>
              f (p (stream drand48 (srand48 seedval) (j * N.toNat + k)))).sum / (N : ℚ))) := by
  refine ⟨trialLoop_length _ _ _ _ _ _, ?_, ?_⟩
  · intro j _
    rw [trialLoop_eq]
  · intro j hj
    rw [trialLoop_eq]
    simp only [List.getElem?_map, List.getElem?_range hj, Option.map_some', observations,
      stream_advance, mul_one_div]

theorem C9_trials_read_one_stream_witness :
    (0 : ℤ) < 2 ∧ (0 : ℤ) ≤ 3 ∧
      ((trialLoop (fun x => x) (fun x => x) (fun s : ℕ => ((s : ℚ), s + 1)) 2 (3 : ℤ).toNat
          ((fun z : ℤ => z.toNat) 5)).1.length = (3 : ℤ).toNat ∧
        (∀ j : ℕ, j ≤ (3 : ℤ).toNat →
          (trialLoop (fun x => x) (fun x => x) (fun s : ℕ => ((s : ℚ), s + 1)) 2 j
              ((fun z : ℤ => z.toNat) 5)).2
            = advance (fun s : ℕ => ((s : ℚ), s + 1)) (j * (2 : ℤ).toNat)
                ((fun z : ℤ => z.toNat) 5)) ∧
        (∀ j : ℕ, j < (3 : ℤ).toNat →
          (trialLoop (fun x => x) (fun x => x) (fun s : ℕ => ((s : ℚ), s + 1)) 2 (3 : ℤ).toNat
              ((fun z : ℤ => z.toNat) 5)).1[j]?
            = some (((List.range (2 : ℤ).toNat).map fun k =>
                (fun x : ℚ => x) ((fun x : ℚ => x)
                  (stream (fun s : ℕ => ((s : ℚ), s + 1)) ((fun z : ℤ => z.toNat) 5)
                    (j * (2 : ℤ).toNat + k)))).sum / ((2 : ℤ) : ℚ)))) :=
  ⟨by decide, by decide,
    C9_trials_read_one_stream (fun x => x) (fun x => x) (fun z : ℤ => z.toNat)
      (fun s : ℕ => ((s : ℚ), s + 1)) 5 2 3 (by decide) (by decide)⟩

theorem numruns_of_nonneg (T W : ℤ) (hT : 0 ≤ T) (hW : 0 < W) : numruns T W = T / W := by
  unfold numruns
  exact Int.tdiv_eq_ediv hT hW.le

theorem numruns_nonneg (T W : ℤ) (hT : 0 ≤ T) (hW : 0 < W) : 0 ≤ numruns T W := by
  rw [numruns_of_nonneg T W hT hW]
  exact Int.ediv_nonneg hT hW.le

/-- The gather of `ls.length` send buffers of `c` values each: the length of the
result, and the cell at index `k`. -/
theorem MPI_Gather_index (c : ℕ) :
    ∀ ls : List (List ℚ), (∀ l ∈ ls, l.length = c) →
      (MPI_Gather ls c).length = ls.length * c ∧
        ∀ k : ℕ, k < ls.length * c →
          (MPI_Gather ls c)[k]? = (ls[k / c]?).bind fun l => l[k % c]? := by
  intro ls
  induction ls with
  | nil => intro _; simp [MPI_Gather]
  | cons l ls ih =>
    intro h
    have hl : l.length = c := h l (List.mem_cons_self _ _)
    have ih' := ih fun m hm => h m (List.mem_cons_of_mem _ hm)
    have hcons : MPI_Gather (l :: ls) c = l ++ MPI_Gather ls c := by
      simp only [MPI_Gather, List.flatMap_cons]
      rw [List.take_of_length_le hl.le]
    rw [hcons]
    refine ⟨?_, ?_⟩
    · rw [List.length_append, ih'.1, hl, List.length_cons]
      ring
    · intro k hk
      have hc : 0 < c := by
        rcases Nat.eq_zero_or_pos c with h0 | h0
        · subst h0; simp at hk
        · exact h0
      rcases Nat.lt_or_ge k c with hlt | hge
      · rw [List.getElem?_append_left (by omega), Nat.div_eq_of_lt hlt, Nat.mod_eq_of_lt hlt]
        simp
      · have hk' : k - c < ls.length * c := by
          rw [List.length_cons, Nat.add_mul, Nat.one_mul] at hk
          omega
        have hd : k / c = (k - c) / c + 1 := by
          have := Nat.sub_add_cancel hge
          conv_lhs => rw [← this]
          exact Nat.add_div_right _ hc
        have hm : k % c = (k - c) % c := by
          have := Nat.sub_add_cancel hge
          conv_lhs => rw [← this]
          exact Nat.add_mod_right _ _
        rw [List.getElem?_append_right (by omega), hl, ih'.2 _ hk', hd, hm]
        simp

theorem gathered_length {S : Type} (f p : ℚ → ℚ) (srand48 : ℤ → S) (drand48 : S → ℚ × S)
    (mytime : ℤ) (own : ℤ → ℤ) (N T W : ℤ) :
    (gathered f p srand48 drand48 mytime own N T W).length
      = W.toNat * (numruns T W).toNat := by
  unfold gathered
  have h := (MPI_Gather_index (numruns T W).toNat
    ((List.range W.toNat).map (worker f p srand48 drand48 mytime own N (numruns T W)))
    (by
      intro l hl
      rcases List.mem_map.1 hl with ⟨r, -, rfl⟩
      exact worker_length _ _ _ _ _ _ _ _ _)).1
  rw [h]
  simp

/-- C4, refuted as stated: for `T = -1` read from the input file and `W = 2`
processes the C division gives `numruns = 0`, while `floor(T/W) = -1`, and
`numruns * W = 0` is not `<= T`. -/
theorem C4_split_negative_T_counterexample :
    (0 : ℤ) < 2 ∧ numruns (-1) 2 = 0 ∧ Int.fdiv (-1) 2 = -1 ∧
      numruns (-1) 2 ≠ Int.fdiv (-1) 2 ∧ ¬ (numruns (-1) 2 * 2 ≤ -1) := by
  decide

/-- C4, amended: for any total trial count `T >= 0` and any worker count
`W > 0`, every worker runs the same number of trials `numruns = floor(T / W)`
(`Int.fdiv` is the division that rounds down), and the total number of executed
trials `numruns * W` equals `floor(T/W) * W` and is `<= T`. -/
theorem C4_split_nonneg_T {S : Type} (f p : ℚ → ℚ) (srand48 : ℤ → S) (drand48 : S → ℚ × S)
    (mytime : ℤ) (own : ℤ → ℤ) (N T W : ℤ) (hT : 0 ≤ T) (hW : 0 < W) :
    numruns T W = Int.fdiv T W ∧
      (∀ rank : ℕ, ((worker f p srand48 drand48 mytime own N (numruns T W) rank).length : ℤ)
        = Int.fdiv T W) ∧
      numruns T W * W = Int.fdiv T W * W ∧ numruns T W * W ≤ T := by
  have hfd : Int.fdiv T W = T / W := Int.fdiv_eq_ediv T hW.le
  have hn : numruns T W = Int.fdiv T W := by
    rw [numruns_of_nonneg T W hT hW, hfd]
  refine ⟨hn, ?_, by rw [hn], ?_⟩
  · intro rank
    rw [worker_length, Int.toNat_of_nonneg (numruns_nonneg T W hT hW), hn]
  · rw [numruns_of_nonneg T W hT hW]
    exact Int.ediv_mul_le T hW.ne'

theorem C4_split_nonneg_T_witness :
    (0 : ℤ) ≤ 10 ∧ (0 : ℤ) < 4 ∧
      (numruns 10 4 = Int.fdiv 10 4 ∧
        (∀ rank : ℕ, ((worker (fun x => x) (fun x => x) (fun z : ℤ => z.toNat)
            (fun s : ℕ => ((s : ℚ), s + 1)) 7 (fun _ => 0) 3 (numruns 10 4) rank).length : ℤ)
          = Int.fdiv 10 4) ∧
        numruns 10 4 * 4 = Int.fdiv 10 4 * 4 ∧ numruns 10 4 * 4 ≤ 10) :=
  ⟨by decide, by decide,
    C4_split_nonneg_T (fun x => x) (fun x => x) (fun z : ℤ => z.toNat)
      (fun s : ℕ => ((s : ℚ), s + 1)) 7 (fun _ => 0) 3 10 4 (by decide) (by decide)⟩

/-- C6: for every `T >= 0` and `W > 0`, with `numruns = T / W` trials per
worker, the sequence gathered at the root has length `floor(T/W) * W`, and for
every index `k` below that length the cell `k` holds the `(k mod numruns)`-th
local trial result of the worker of rank `k / numruns`, a rank below `W`: the
results of each worker are contiguous and in the order of its trial loop. -/
theorem C6_gather_is_worker_major {S : Type} (f p : ℚ → ℚ) (srand48 : ℤ → S)
    (drand48 : S → ℚ × S) (mytime : ℤ) (own : ℤ → ℤ) (N T W : ℤ) (hT : 0 ≤ T) (hW : 0 < W) :
    ((gathered f p srand48 drand48 mytime own N T W).length : ℤ) = T / W * W ∧
      ∀ k : ℕ, k < (gathered f p srand48 drand48 mytime own N T W).length →
        k / (numruns T W).toNat < W.toNat ∧
        k % (numruns T W).toNat < (numruns T W).toNat ∧
        ∃ x : ℚ, (gathered f p srand48 drand48 mytime own N T W)[k]? = some x ∧
          (worker f p srand48 drand48 mytime own N (numruns T W)
            (k / (numruns T W).toNat))[k % (numruns T W).toNat]? = some x := by
  have hlen := gathered_length f p srand48 drand48 mytime own N T W
  have hnn := numruns_nonneg T W hT hW
  refine ⟨?_, ?_⟩
  · rw [hlen]
    push_cast
    rw [Int.toNat_of_nonneg hW.le, Int.toNat_of_nonneg hnn, numruns_of_nonneg T W hT hW]
    ring
  · intro k hk
    rw [hlen] at hk
    have hc : 0 < (numruns T W).toNat := by
      rcases Nat.eq_zero_or_pos (numruns T W).toNat with h0 | h0
      · rw [h0] at hk; simp at hk
      · exact h0
    have hq : k / (numruns T W).toNat < W.toNat := by
      rw [Nat.div_lt_iff_lt_mul hc]
      exact hk
    have hr : k % (numruns T W).toNat < (numruns T W).toNat := Nat.mod_lt _ hc
    refine ⟨hq, hr, ?_⟩
    have hidx := (MPI_Gather_index (numruns T W).toNat
      ((List.range W.toNat).map (worker f p srand48 drand48 mytime own N (numruns T W)))
      (by
        intro l hl
        rcases List.mem_map.1 hl with ⟨r, -, rfl⟩
        exact worker_length _ _ _ _ _ _ _ _ _)).2 k (by simpa using hk)
    have hw : k % (numruns T W).toNat
        < (worker f p srand48 drand48 mytime own N (numruns T W)
            (k / (numruns T W).toNat)).length := by
      rw [worker_length]; exact hr
    refine ⟨(worker f p srand48 drand48 mytime own N (numruns T W)
      (k / (numruns T W).toNat)).get ⟨_, hw⟩, ?_, ?_⟩
    · unfold gathered
      rw [hidx, List.getElem?_map, List.getElem?_range hq]
      simp only [Option.map_some', Option.some_bind]
      exact List.getElem?_eq_getElem hw
    · exact List.getElem?_eq_getElem hw

theorem C6_gather_is_worker_major_witness :
    (0 : ℤ) ≤ 10 ∧ (0 : ℤ) < 4 ∧
      (((gathered (fun x => x) (fun x => x) (fun z : ℤ => z.toNat)
          (fun s : ℕ => ((s : ℚ), s + 1)) 7 (fun _ => 0) 3 10 4).length : ℤ) = 10 / 4 * 4 ∧
        ∀ k : ℕ, k < (gathered (fun x => x) (fun x => x) (fun z : ℤ => z.toNat)
            (fun s : ℕ => ((s : ℚ), s + 1)) 7 (fun _ => 0) 3 10 4).length →
          k / (numruns 10 4).toNat < (4 : ℤ).toNat ∧
          k % (numruns 10 4).toNat < (numruns 10 4).toNat ∧
          ∃ x : ℚ, (gathered (fun x => x) (fun x => x) (fun z : ℤ => z.toNat)
              (fun s : ℕ => ((s : ℚ), s + 1)) 7 (fun _ => 0) 3 10 4)[k]? = some x ∧
            (worker (fun x => x) (fun x => x) (fun z : ℤ => z.toNat)
              (fun s : ℕ => ((s : ℚ), s + 1)) 7 (fun _ => 0) 3 (numruns 10 4)
              (k / (numruns 10 4).toNat))[k % (numruns 10 4).toNat]? = some x) :=
  ⟨by decide, by decide,
    C6_gather_is_worker_major (fun x => x) (fun x => x) (fun z : ℤ => z.toNat)
      (fun s : ℕ => ((s : ℚ), s + 1)) 7 (fun _ => 0) 3 10 4 (by decide) (by decide)⟩

theorem bcastInitseed_emod (root own rank : ℤ) :
    bcastInitseed root own rank % 2 ^ 32 = root % 2 ^ 32 := by
  unfold bcastInitseed
  split_ifs
  · rfl
  · rw [wrapLong_emod]
    omega

theorem bcastInitseed_range (root own rank : ℤ) (h1 : -2 ^ 63 ≤ root) (h2 : root < 2 ^ 63) :
    -2 ^ 63 ≤ bcastInitseed root own rank ∧ bcastInitseed root own rank < 2 ^ 63 := by
  unfold bcastInitseed wrapLong
  split_ifs <;> omega

theorem srand48Arg_emod (mytime : ℤ) (own : ℤ → ℤ) (rank : ℤ) :
    srand48Arg mytime own rank % 2 ^ 32 = (mytime + rank) % 2 ^ 32 := by
  unfold srand48Arg seed
  rw [wrapLong_emod]
  have h := bcastInitseed_emod mytime (own rank) rank
  omega

/-- The seeds of two different ranks below `W` are distinct, already in their
low 32 bits, whatever the high bytes that the broadcast leaves in place. -/
theorem srand48Arg_ne_of_rank_ne (mytime : ℤ) (own : ℤ → ℤ) (W : ℤ) (hint : W < 2 ^ 31)
    (i j : ℤ) (hi0 : 0 ≤ i) (hiW : i < W) (hj0 : 0 ≤ j) (hjW : j < W) (hij : i ≠ j) :
    srand48Arg mytime own i % 2 ^ 32 ≠ srand48Arg mytime own j % 2 ^ 32 := by
  rw [srand48Arg_emod, srand48Arg_emod]
  omega

/-- On rank `0` the argument of `srand48` is the coordinator's `initseed`
itself, for every `long` value of it. -/
theorem srand48Arg_rank_zero (mytime : ℤ) (own : ℤ → ℤ)
    (hlo : -2 ^ 63 ≤ mytime) (hhi : mytime < 2 ^ 63) : srand48Arg mytime own 0 = mytime := by
  unfold srand48Arg seed
  rw [add_zero]
  have hb : bcastInitseed mytime (own 0) 0 = mytime := by simp [bcastInitseed]
  rw [hb]
  exact wrapLong_of_range _ hlo hhi

/-- C5, the code with the coordinator's `initseed = 1700000000` on the worker of
rank `1` whose own `initseed` held `2^40 + 5` before the broadcast: the
broadcast of one `MPI_INT` replaces only the four low-order bytes, the worker
holds `256 * 2^32 + 1700000000 = 1101211627776` afterwards, and the value passed
to `srand48` is `1101211627777`, not the base seed plus the rank
`1700000000 + 1`; only the low 32 bits agree. -/
theorem C5_seed_rank1_keeps_high_bytes :
    bcastInitseed 1700000000 (2 ^ 40 + 5) 1 = 1101211627776 ∧
      srand48Arg 1700000000 (fun r => r * 2 ^ 40 + 5) 1 = 1101211627777 ∧
      srand48Arg 1700000000 (fun r => r * 2 ^ 40 + 5) 1 ≠ 1700000000 + 1 ∧
      srand48Arg 1700000000 (fun r => r * 2 ^ 40 + 5) 1 % 2 ^ 32 = (1700000000 + 1) % 2 ^ 32 ∧
      srand48Arg 1700000000 (fun r => r * 2 ^ 40 + 5) 0 = 1700000000 := by
  have e1 : bcastInitseed 1700000000 (2 ^ 40 + 5) 1 = 1101211627776 := by
    norm_num [bcastInitseed, wrapLong]
  have e2 : srand48Arg 1700000000 (fun r => r * 2 ^ 40 + 5) 1 = 1101211627777 := by
    norm_num [srand48Arg, seed, bcastInitseed, wrapLong]
  have e3 : srand48Arg 1700000000 (fun r => r * 2 ^ 40 + 5) 0 = 1700000000 := by
    norm_num [srand48Arg, seed, bcastInitseed, wrapLong]
  refine ⟨e1, e2, ?_, ?_, e3⟩
  · rw [e2]; norm_num
  · rw [e2]; norm_num

/-- C3, the code at `T = 10`, `W = 4` (any `N`, seed, generator): each worker
runs `numruns = 2` trials and `8` results are gathered, yet the file written has
header `10` and `10` doubles: the `8` gathered results followed by `2` cells of
`results` that were never assigned. -/
theorem C3_output_file_T10_W4 {S : Type} (f p : ℚ → ℚ) (srand48 : ℤ → S)
    (drand48 : S → ℚ × S) (mytime : ℤ) (own : ℤ → ℤ) (N : ℤ) :
    numruns 10 4 = 2 ∧
      (gathered f p srand48 drand48 mytime own N 10 4).length = 8 ∧
      ∃ file : OutputFile,
        main f p srand48 drand48 mytime own N 10 4 = some file ∧
        file.header = 10 ∧ file.doubles.length = 10 ∧
        file.doubles
          = (gathered f p srand48 drand48 mytime own N 10 4).map some ++ [none, none] := by
  have hn : numruns 10 4 = 2 := by decide
  have hlen : (gathered f p srand48 drand48 mytime own N 10 4).length = 8 := by
    rw [gathered_length, hn]
    decide
  refine ⟨hn, hlen, ?_⟩
  have hT : (10 : ℤ).toNat = 10 := by decide
  have hfile : main f p srand48 drand48 mytime own N 10 4
      = some ⟨10, (gathered f p srand48 drand48 mytime own N 10 4).map some ++ [none, none]⟩ := by
    have hc : ¬ ((10 : ℤ) < 0 ∨ (4 : ℤ) ≤ 0) := by decide
    simp only [main, hc, if_false, hT, hlen]
    have hr : List.replicate (10 - 8) (none : Option ℚ) = [none, none] := rfl
    rw [hr, List.take_of_length_le]
    simp [hlen]
  refine ⟨_, hfile, rfl, ?_, rfl⟩
  simp [hlen]

/-- The header and the number of doubles of the file written, for every
`T >= 0` and `W > 0`: both are `T`, whatever the number of gathered results. -/
theorem main_writes_T {S : Type} (f p : ℚ → ℚ) (srand48 : ℤ → S) (drand48 : S → ℚ × S)
    (mytime : ℤ) (own : ℤ → ℤ) (N T W : ℤ) (hT : 0 ≤ T) (hW : 0 < W) :
    ∃ file : OutputFile, main f p srand48 drand48 mytime own N T W = some file ∧
      file.header = T ∧ (file.doubles.length : ℤ) = T := by
  have hc : ¬ (T < 0 ∨ W ≤ 0) := by omega
  refine ⟨⟨T, ((gathered f p srand48 drand48 mytime own N T W).map some
      ++ List.replicate (T.toNat - (gathered f p srand48 drand48 mytime own N T W).length)
          none).take T.toNat⟩, by simp only [main, hc, if_false], rfl, ?_⟩
  simp only [List.length_take, List.length_append, List.length_map, List.length_replicate]
  omega

end McquadPar
